import Mathlib

/-!
Verification development for the sparse-MDP PRCTL model-checking core
(`SparseMdpPrctlModelChecker`): extremal until-probabilities, bounded until,
reward solvers and scheduler extraction.

The checker itself (`checkNoBoundOperator`, `checkBoundedUntil`,
`computeUnboundedUntilProbabilities`, `checkInstantaneousReward`,
`checkCumulativeReward`, `checkReachabilityReward`,
`computeExtremalScheduler`) is embedded from the source file
`src/modelchecker/AbstractModelChecker.cpp` (the part holding
`SparseMdpPrctlModelChecker`).  Collaborator components that the source
only calls (bit vectors, the graph fixed-point routines of
`storm::utility::graph`, the vector utilities of `storm::utility::vector`,
the sparse-matrix operations and the equation-solver interface) are
modelled from the specification, as noted on each definition.

Representation choices:
- the value type is `ℚ` (machine `double` / exact rationals of the template
  parameter `Type`);
- a bit vector over states is a `List Bool`;
- the row-grouped transition matrix is `List (List Row)`: one group of
  action rows per state, each row a dense distribution over successor
  states (the flat-rows-plus-offset layout of the sparse matrix is an
  indexing detail; the row-group structure is the semantic content).
-/

namespace Storm

abbrev Val := ℚ
abbrev Vec := List Val
abbrev Row := List Val
abbrev StateSet := List Bool
abbrev GroupedMatrix := List (List Row)

/-! ### Bit-vector operations

Modelled from the spec: `storm::storage::BitVector` is not under `src/`;
§2 describes it as an "ordered boolean indicator set over states;
set/complement/intersect/difference". -/

/-- Modelled from the spec: `BitVector::complement` (pointwise negation). -/
def complementSet (s : StateSet) : StateSet := s.map (fun b => !b)

/-- Modelled from the spec: pointwise union (`operator|`). -/
def unionSet (a b : StateSet) : StateSet := List.zipWith (fun x y => x || y) a b

/-- Modelled from the spec: pointwise intersection (`operator&`). -/
def interSet (a b : StateSet) : StateSet := List.zipWith (fun x y => x && y) a b

/-- Modelled from the spec: `BitVector::isDisjointFrom` (no common set bit). -/
def isDisjointFrom (a b : StateSet) : Bool := !(List.zipWith (fun x y => x && y) a b).any id

/-- Modelled from the spec: `BitVector::getNumberOfSetBits`. -/
def numTrue : StateSet → Nat
  | [] => 0
  | b :: bs => (if b then 1 else 0) + numTrue bs

/-- Modelled from the spec: the `%` projection of a bit vector into the
reduced state space, and `getSubmatrix`-style row selection: keep the
entries of `l` whose position carries a set bit. -/
def restrict {α : Type} (bits : StateSet) (l : List α) : List α :=
  (List.zip bits l).filterMap (fun p => if p.1 then some p.2 else none)

/-- Pointwise containment of same-length bit vectors. -/
def subsetB : StateSet → StateSet → Bool
  | [], [] => true
  | a :: as, b :: bs => (!a || b) && subsetB as bs
  | _, _ => false

/-! ### Vector utilities

Modelled from the spec: `storm::utility::vector` is not under `src/`. -/

/-- Modelled from the spec: `setVectorValues` with a constant value — set
every position carrying a set bit to `c`. -/
def setVectorValuesConst {α : Type} : List α → StateSet → α → List α
  | [], _, _ => []
  | v, [], _ => v
  | x :: vs, b :: bs, c => (if b then c else x) :: setVectorValuesConst vs bs c

/-- Modelled from the spec: `setVectorValues` with a value vector — the
positions carrying set bits receive the entries of `vals` in order. -/
def setVectorValuesList {α : Type} : List α → StateSet → List α → List α
  | [], _, _ => []
  | v, [], _ => v
  | x :: vs, b :: bs, vals =>
      if b then vals.headD x :: setVectorValuesList vs bs vals.tail
      else x :: setVectorValuesList vs bs vals

/-! ### Basic lemmas about the set and vector operations -/

theorem getD_true_lt_length (s : StateSet) (i : Nat) (h : s.getD i false = true) :
    i < s.length := by
  by_contra hlt
  rw [List.getD_eq_default] at h
  · exact Bool.false_ne_true h
  · omega

theorem subsetB_length {a b : StateSet} (h : subsetB a b = true) : a.length = b.length := by
  induction a generalizing b with
  | nil => cases b with
    | nil => rfl
    | cons y ys => simp [subsetB] at h
  | cons x xs ih => cases b with
    | nil => simp [subsetB] at h
    | cons y ys =>
      simp only [subsetB, Bool.and_eq_true] at h
      simp [ih h.2]

theorem subsetB_getD {a b : StateSet} (h : subsetB a b = true) (i : Nat)
    (hi : a.getD i false = true) : b.getD i false = true := by
  induction a generalizing b i with
  | nil => simp at hi
  | cons x xs ih =>
    cases b with
    | nil => simp [subsetB] at h
    | cons y ys =>
      simp only [subsetB, Bool.and_eq_true] at h
      cases i with
      | zero =>
        simp only [List.getD_cons_zero] at hi ⊢
        subst hi
        simpa using h.1
      | succ n =>
        simp only [List.getD_cons_succ] at hi ⊢
        exact ih h.2 n hi

theorem subsetB_refl (a : StateSet) : subsetB a a = true := by
  induction a with
  | nil => rfl
  | cons x xs ih => simp [subsetB, ih]

theorem subsetB_trans {a b c : StateSet} (h1 : subsetB a b = true)
    (h2 : subsetB b c = true) : subsetB a c = true := by
  induction a generalizing b c with
  | nil =>
    cases b with
    | nil => cases c with
      | nil => rfl
      | cons z zs => simp [subsetB] at h2
    | cons y ys => simp [subsetB] at h1
  | cons x xs ih =>
    cases b with
    | nil => simp [subsetB] at h1
    | cons y ys =>
      cases c with
      | nil => simp [subsetB] at h2
      | cons z zs =>
        simp only [subsetB, Bool.and_eq_true] at h1 h2 ⊢
        refine ⟨?_, ih h1.2 h2.2⟩
        have hx := h1.1
        have hy := h2.1
        cases x <;> cases y <;> cases z <;> simp_all

theorem numTrue_le_length (s : StateSet) : numTrue s ≤ s.length := by
  induction s with
  | nil => simp [numTrue]
  | cons x xs ih => cases x <;> simp [numTrue] <;> omega

theorem subsetB_numTrue_le {a b : StateSet} (h : subsetB a b = true) :
    numTrue a ≤ numTrue b := by
  induction a generalizing b with
  | nil =>
    cases b with
    | nil => exact le_refl _
    | cons y ys => simp [subsetB] at h
  | cons x xs ih =>
    cases b with
    | nil => simp [subsetB] at h
    | cons y ys =>
      simp only [subsetB, Bool.and_eq_true] at h
      have hx : numTrue xs ≤ numTrue ys := ih h.2
      have hy := h.1
      have hx2 : (if x then 1 else 0) ≤ (if y then 1 else 0) := by
        cases x with
        | false => cases y <;> simp
        | true =>
          have : y = true := by cases y <;> simp_all
          simp [this]
      simp only [numTrue]
      omega

theorem subsetB_numTrue_lt {a b : StateSet} (h : subsetB a b = true) (hne : a ≠ b) :
    numTrue a < numTrue b := by
  induction a generalizing b with
  | nil =>
    cases b with
    | nil => exact absurd rfl hne
    | cons y ys => simp [subsetB] at h
  | cons x xs ih =>
    cases b with
    | nil => simp [subsetB] at h
    | cons y ys =>
      simp only [subsetB, Bool.and_eq_true] at h
      by_cases hxy : x = y
      · subst hxy
        have hne2 : xs ≠ ys := fun hcon => hne (by rw [hcon])
        have := ih h.2 hne2
        cases x <;> simp [numTrue] <;> omega
      · have hx : x = false := by
          cases x with
          | false => rfl
          | true =>
            cases y with
            | false => simp at h
            | true => exact absurd rfl hxy
        have hy : y = true := by
          cases y with
          | false =>
            cases x with
            | false => exact absurd rfl hxy
            | true => simp at h
          | true => rfl
        subst hx; subst hy
        have := subsetB_numTrue_le h.2
        simp [numTrue]
        omega

theorem numTrue_eq_length_getD {s : StateSet} (h : numTrue s = s.length) (i : Nat)
    (hi : i < s.length) : s.getD i false = true := by
  induction s generalizing i with
  | nil => simp at hi
  | cons x xs ih =>
    cases x with
    | false =>
      have := numTrue_le_length xs
      simp [numTrue] at h
      omega
    | true =>
      cases i with
      | zero => rfl
      | succ n =>
        simp only [List.getD_cons_succ]
        apply ih
        · simp [numTrue] at h
          omega
        · simpa using Nat.lt_of_succ_lt_succ hi

theorem subsetB_antisymm_of_length {a b : StateSet} (h : subsetB a b = true)
    (hn : numTrue a = numTrue b) : a = b := by
  by_contra hne
  exact absurd hn (Nat.ne_of_lt (subsetB_numTrue_lt h hne))

theorem setVectorValuesConst_length {α : Type} (v : List α) (bits : StateSet) (c : α) :
    (setVectorValuesConst v bits c).length = v.length := by
  induction v generalizing bits with
  | nil => simp [setVectorValuesConst]
  | cons x vs ih =>
    cases bits with
    | nil => simp [setVectorValuesConst]
    | cons b bs => simp [setVectorValuesConst, ih]

theorem setVectorValuesConst_getD_true {α : Type} (v : List α) (bits : StateSet) (c : α)
    (i : Nat) (d : α) (hi : i < v.length) (hb : bits.getD i false = true) :
    (setVectorValuesConst v bits c).getD i d = c := by
  induction v generalizing bits i with
  | nil => simp at hi
  | cons x vs ih =>
    cases bits with
    | nil => simp at hb
    | cons b bs =>
      cases i with
      | zero =>
        simp only [List.getD_cons_zero] at hb
        simp [setVectorValuesConst, hb]
      | succ n =>
        simp only [List.getD_cons_succ] at hb
        simp only [setVectorValuesConst, List.getD_cons_succ]
        exact ih bs n (by simpa using Nat.lt_of_succ_lt_succ hi) hb

theorem setVectorValuesConst_getD_false {α : Type} (v : List α) (bits : StateSet) (c : α)
    (i : Nat) (d : α) (hb : bits.getD i false = false) :
    (setVectorValuesConst v bits c).getD i d = v.getD i d := by
  induction v generalizing bits i with
  | nil => simp [setVectorValuesConst]
  | cons x vs ih =>
    cases bits with
    | nil => simp [setVectorValuesConst]
    | cons b bs =>
      cases i with
      | zero =>
        simp only [List.getD_cons_zero] at hb
        simp [setVectorValuesConst, hb]
      | succ n =>
        simp only [List.getD_cons_succ] at hb
        simp only [setVectorValuesConst, List.getD_cons_succ]
        exact ih bs n hb

theorem setVectorValuesConst_mem {α : Type} {v : List α} {bits : StateSet} {c : α} {x : α}
    (h : x ∈ setVectorValuesConst v bits c) : x ∈ v ∨ x = c := by
  induction v generalizing bits with
  | nil => simp [setVectorValuesConst] at h
  | cons y vs ih =>
    cases bits with
    | nil => exact Or.inl (by simpa [setVectorValuesConst] using h)
    | cons b bs =>
      simp only [setVectorValuesConst, List.mem_cons] at h
      rcases h with h | h
      · cases b with
        | false => simp at h; exact Or.inl (by simp [h])
        | true => simp at h; exact Or.inr h
      · rcases ih h with h2 | h2
        · exact Or.inl (List.mem_cons_of_mem _ h2)
        · exact Or.inr h2

theorem setVectorValuesList_length {α : Type} (v : List α) (bits : StateSet) (vals : List α) :
    (setVectorValuesList v bits vals).length = v.length := by
  induction v generalizing bits vals with
  | nil => simp [setVectorValuesList]
  | cons x vs ih =>
    cases bits with
    | nil => simp [setVectorValuesList]
    | cons b bs =>
      by_cases hb : b = true
      · simp [setVectorValuesList, hb, ih]
      · simp only [Bool.not_eq_true] at hb
        simp [setVectorValuesList, hb, ih]

theorem setVectorValuesList_getD_false {α : Type} (v : List α) (bits : StateSet)
    (vals : List α) (i : Nat) (d : α) (hb : bits.getD i false = false) :
    (setVectorValuesList v bits vals).getD i d = v.getD i d := by
  induction v generalizing bits vals i with
  | nil => simp [setVectorValuesList]
  | cons x vs ih =>
    cases bits with
    | nil => simp [setVectorValuesList]
    | cons b bs =>
      cases i with
      | zero =>
        simp only [List.getD_cons_zero] at hb
        simp [setVectorValuesList, hb]
      | succ n =>
        simp only [List.getD_cons_succ] at hb
        by_cases hbb : b = true
        · simp only [setVectorValuesList, hbb, if_pos, List.getD_cons_succ]
          exact ih bs vals.tail n hb
        · simp only [Bool.not_eq_true] at hbb
          simp only [setVectorValuesList, hbb, Bool.false_eq_true, if_false,
            List.getD_cons_succ]
          exact ih bs vals n hb

theorem setVectorValuesList_mem {α : Type} {v : List α} {bits : StateSet} {vals : List α}
    {x : α} (h : x ∈ setVectorValuesList v bits vals) : x ∈ v ∨ x ∈ vals := by
  induction v generalizing bits vals with
  | nil => simp [setVectorValuesList] at h
  | cons y vs ih =>
    cases bits with
    | nil => exact Or.inl (by simpa [setVectorValuesList] using h)
    | cons b bs =>
      cases b with
      | true =>
        simp only [setVectorValuesList, if_true] at h
        simp only [List.mem_cons] at h
        rcases h with h | h
        · cases vals with
          | nil => exact Or.inl (by simp [List.headD] at h; simp [h])
          | cons w ws => exact Or.inr (by simp [List.headD] at h; simp [h])
        · rcases ih h with h2 | h2
          · exact Or.inl (List.mem_cons_of_mem _ h2)
          · cases vals with
            | nil => simp at h2
            | cons w ws => exact Or.inr (List.mem_cons_of_mem _ (by simpa using h2))
      | false =>
        simp only [setVectorValuesList, Bool.false_eq_true, if_false, List.mem_cons] at h
        rcases h with h | h
        · exact Or.inl (by simp [h])
        · rcases ih h with h2 | h2
          · exact Or.inl (List.mem_cons_of_mem _ h2)
          · exact Or.inr h2

/-! ### Matrix operations

Modelled from the spec: `storm::storage::SparseMatrix` is not under `src/`;
§2: "Row-grouped transition matrix: states own contiguous groups of rows,
one row per available action, each row a sub-probability distribution over
successor states". -/

/-- Dot product of an action row with a value vector. -/
def rowDot (r : Row) (x : Vec) : Val := (List.zipWith (fun a b => a * b) r x).sum

/-- Modelled from the spec: `SparseMatrix::getSubmatrix` — keep the row
groups of the states carrying a set bit and restrict every row to the
columns of those states. -/
def getSubmatrix (bits : StateSet) (mat : GroupedMatrix) : GroupedMatrix :=
  (restrict bits mat).map (fun g => g.map (fun r => restrict bits r))

/-- The unit row of length `len` with a single 1 at position `i`. -/
def unitRow (len i : Nat) : Row := (List.range len).map (fun j => if j = i then 1 else 0)

/-- Modelled from the spec: `SparseMatrix::makeRowsAbsorbing` — every row of
a state carrying a set bit is replaced by the self-loop unit row (§4.2:
"forces rows of psi-states to be self-looping on the restricted submatrix
(absorbing)"). -/
def makeRowsAbsorbing (bits : StateSet) (mat : GroupedMatrix) : GroupedMatrix :=
  mat.enum.map (fun p => if bits.getD p.1 false then p.2.map (fun r => unitRow r.length p.1) else p.2)

/-- Modelled from the spec: `SparseMatrix::getConstrainedRowSumVector` — for
every retained row group, the row-sums of the probability mass entering the
states of `colBits` (§4.1: "build right-hand side b = row-sum of probability
mass entering probability-1 states"). -/
def getConstrainedRowSumVector (rowBits : StateSet) (mat : GroupedMatrix) (colBits : StateSet) :
    List Vec :=
  (restrict rowBits mat).map (fun g => g.map (fun r => (restrict colBits r).sum))

/-- Modelled from the spec: `SparseMatrix::getPointwiseProductRowSumVector` —
per action row, the row-sum of the pointwise product of the transition
probabilities and the transition rewards (§4.3). -/
def pointwiseProductRowSums (mat trm : GroupedMatrix) : List Vec :=
  List.zipWith (fun g tg => List.zipWith (fun r tr => rowDot r tr) g tg) mat trm

/-- Modelled from the spec: `selectVectorValuesRepeatedly` over the full
state set — duplicate the per-state value across every action row of the
state (§4.3: "the state's own reward (duplicated across every row of that
state)"). -/
def selectRepeated (mat : GroupedMatrix) (srv : Vec) : List Vec :=
  List.zipWith (fun g c => g.map (fun _ => c)) mat srv

/-- Pointwise addition of two row-grouped value tables
(`addVectorsInPlace`). -/
def addGrouped (a b : List Vec) : List Vec :=
  List.zipWith (fun x y => List.zipWith (fun u v => u + v) x y) a b

/-! ### Extremal reduction

Modelled from the spec: `storm::utility::vector::reduceVectorMin` /
`reduceVectorMax` are not under `src/`; §4.2: "each sweep reduces all
action-rows of a state to the extremal one"; §4.1 step 6: "per state choose
argmin (minimize) / argmax (maximize) over its rows, first index on ties". -/

/-- The binary extremal operation: `min` when minimizing, `max` otherwise. -/
def extOp (minimize : Bool) (a b : Val) : Val := if minimize then min a b else max a b

/-- The extremal value of a list (0 for an empty list). -/
def listExt (minimize : Bool) : List Val → Val
  | [] => 0
  | x :: xs => xs.foldl (extOp minimize) x

/-- The index of the first occurrence of a value in a list. -/
def firstIndexOf (v : Val) : List Val → Nat
  | [] => 0
  | x :: xs => if x = v then 0 else firstIndexOf v xs + 1

/-- The index of the first occurrence of the extremal value: the chosen
action of the reduction (ties resolved by lowest index). -/
def argExt (minimize : Bool) (l : List Val) : Nat := firstIndexOf (listExt minimize l) l

/-! ### Lemmas about indexing, the extremal reduction and the set algebra -/

theorem getD_replicate {α : Type} (n i : Nat) (a d : α) (hi : i < n) :
    (List.replicate n a).getD i d = a := by
  induction n generalizing i with
  | zero => omega
  | succ k ih =>
    cases i with
    | zero => rfl
    | succ j => exact ih j (by omega)

theorem zipWith_getD {α β γ : Type} (f : α → β → γ) (a : List α) (b : List β) (i : Nat)
    (da : α) (db : β) (d : γ) (hia : i < a.length) (hib : i < b.length) :
    (List.zipWith f a b).getD i d = f (a.getD i da) (b.getD i db) := by
  induction a generalizing b i with
  | nil => simp at hia
  | cons x xs ih =>
    cases b with
    | nil => simp at hib
    | cons y ys =>
      cases i with
      | zero => rfl
      | succ j =>
        simp only [List.zipWith_cons_cons, List.getD_cons_succ]
        exact ih ys j (by simpa using Nat.lt_of_succ_lt_succ hia)
          (by simpa using Nat.lt_of_succ_lt_succ hib)

theorem map_getD {α β : Type} (f : α → β) (l : List α) (i : Nat) (da : α) (d : β)
    (hi : i < l.length) : (l.map f).getD i d = f (l.getD i da) := by
  induction l generalizing i with
  | nil => simp at hi
  | cons x xs ih =>
    cases i with
    | zero => rfl
    | succ j =>
      simp only [List.map_cons, List.getD_cons_succ]
      exact ih j (by simpa using Nat.lt_of_succ_lt_succ hi)

theorem complementSet_length (s : StateSet) : (complementSet s).length = s.length := by
  simp [complementSet]

theorem complementSet_getD (s : StateSet) (i : Nat) (hi : i < s.length) :
    (complementSet s).getD i false = !(s.getD i false) := by
  simpa [complementSet] using map_getD (fun b => !b) s i false false hi

theorem complementSet_getD_true {s : StateSet} {i : Nat}
    (h : (complementSet s).getD i false = true) : s.getD i false = false := by
  have hi : i < s.length := by
    have := getD_true_lt_length _ _ h
    simpa [complementSet_length] using this
  have := complementSet_getD s i hi
  rw [this] at h
  cases hb : s.getD i false with
  | false => rfl
  | true => rw [hb] at h; simp at h

theorem unionSet_length (a b : StateSet) : (unionSet a b).length = min a.length b.length := by
  simp [unionSet]

theorem interSet_getD_true {a b : StateSet} {i : Nat}
    (h : (interSet a b).getD i false = true) :
    a.getD i false = true ∧ b.getD i false = true := by
  have hi := getD_true_lt_length _ _ h
  simp only [interSet, List.length_zipWith, lt_min_iff] at hi
  simp only [interSet] at h
  rw [zipWith_getD (fun x y => x && y) a b i false false false hi.1 hi.2] at h
  exact Bool.and_eq_true_iff.mp h

theorem unionSet_getD_false {a b : StateSet} {i : Nat} (hia : i < a.length)
    (hib : i < b.length) (h : (unionSet a b).getD i false = false) :
    a.getD i false = false ∧ b.getD i false = false := by
  rw [unionSet, zipWith_getD (fun x y => x || y) a b i false false false hia hib] at h
  cases ha : a.getD i false <;> cases hb : b.getD i false <;> rw [ha, hb] at h <;>
    simp_all

theorem restrict_mem {α : Type} {bits : StateSet} {l : List α} {x : α}
    (h : x ∈ restrict bits l) : x ∈ l := by
  induction bits generalizing l with
  | nil => simp [restrict] at h
  | cons b bs ih =>
    cases l with
    | nil => simp [restrict] at h
    | cons y ys =>
      cases b with
      | true =>
        simp only [restrict, List.zip_cons_cons, List.filterMap_cons, if_true] at h
        rcases List.mem_cons.mp h with h2 | h2
        · simp [h2]
        · exact List.mem_cons_of_mem _ (ih (by simpa [restrict] using h2))
      | false =>
        simp only [restrict, List.zip_cons_cons, List.filterMap_cons,
          Bool.false_eq_true, if_false] at h
        exact List.mem_cons_of_mem _ (ih (by simpa [restrict] using h))

theorem restrict_length_le {α : Type} (bits : StateSet) (l : List α) :
    (restrict bits l).length ≤ l.length := by
  induction bits generalizing l with
  | nil => simp [restrict]
  | cons b bs ih =>
    cases l with
    | nil => simp [restrict]
    | cons y ys =>
      cases b with
      | true =>
        simp only [restrict, List.zip_cons_cons, List.filterMap_cons, if_true,
          List.length_cons]
        exact Nat.succ_le_succ (by simpa [restrict] using ih ys)
      | false =>
        simp only [restrict, List.zip_cons_cons, List.filterMap_cons,
          Bool.false_eq_true, if_false, List.length_cons]
        exact Nat.le_succ_of_le (by simpa [restrict] using ih ys)

theorem listExt_eq_foldl (minimize : Bool) (x : Val) (xs : List Val) :
    listExt minimize (x :: xs) = xs.foldl (extOp minimize) x := rfl

theorem foldl_extOp_mem (minimize : Bool) (xs : List Val) (a : Val) :
    xs.foldl (extOp minimize) a ∈ a :: xs := by
  induction xs generalizing a with
  | nil => simp
  | cons y ys ih =>
    simp only [List.foldl_cons]
    have h := ih (extOp minimize a y)
    have hc : extOp minimize a y = a ∨ extOp minimize a y = y := by
      cases minimize with
      | true => simpa [extOp] using min_choice a y
      | false => simpa [extOp] using max_choice a y
    rcases List.mem_cons.mp h with h2 | h2
    · rcases hc with h3 | h3
      · exact List.mem_cons.mpr (Or.inl (h2.trans h3))
      · exact List.mem_cons_of_mem _ (List.mem_cons.mpr (Or.inl (h2.trans h3)))
    · exact List.mem_cons_of_mem _ (List.mem_cons_of_mem _ h2)

theorem listExt_mem (minimize : Bool) {l : List Val} (h : l ≠ []) :
    listExt minimize l ∈ l := by
  cases l with
  | nil => exact absurd rfl h
  | cons x xs => exact foldl_extOp_mem minimize xs x

theorem foldl_extOp_le (xs : List Val) (a : Val) :
    xs.foldl (extOp true) a ≤ a ∧ ∀ v ∈ xs, xs.foldl (extOp true) a ≤ v := by
  induction xs generalizing a with
  | nil => simp
  | cons y ys ih =>
    simp only [List.foldl_cons]
    have h := ih (extOp true a y)
    have h1 : extOp true a y ≤ a := by simp [extOp]
    have h2 : extOp true a y ≤ y := by simp [extOp]
    refine ⟨le_trans h.1 h1, ?_⟩
    intro v hv
    rcases List.mem_cons.mp hv with h3 | h3
    · rw [h3]; exact le_trans h.1 h2
    · exact h.2 v h3

theorem foldl_extOp_ge (xs : List Val) (a : Val) :
    a ≤ xs.foldl (extOp false) a ∧ ∀ v ∈ xs, v ≤ xs.foldl (extOp false) a := by
  induction xs generalizing a with
  | nil => simp
  | cons y ys ih =>
    simp only [List.foldl_cons]
    have h := ih (extOp false a y)
    have h1 : a ≤ extOp false a y := by simp [extOp]
    have h2 : y ≤ extOp false a y := by simp [extOp]
    refine ⟨le_trans h1 h.1, ?_⟩
    intro v hv
    rcases List.mem_cons.mp hv with h3 | h3
    · rw [h3]; exact le_trans h2 h.1
    · exact h.2 v h3

theorem listExt_min_le {l : List Val} {v : Val} (hv : v ∈ l) : listExt true l ≤ v := by
  cases l with
  | nil => simp at hv
  | cons x xs =>
    rcases List.mem_cons.mp hv with h | h
    · exact h ▸ (foldl_extOp_le xs x).1
    · exact (foldl_extOp_le xs x).2 v h

theorem le_listExt_max {l : List Val} {v : Val} (hv : v ∈ l) : v ≤ listExt false l := by
  cases l with
  | nil => simp at hv
  | cons x xs =>
    rcases List.mem_cons.mp hv with h | h
    · exact h ▸ (foldl_extOp_ge xs x).1
    · exact (foldl_extOp_ge xs x).2 v h

theorem firstIndexOf_lt_length {v : Val} {l : List Val} (h : v ∈ l) :
    firstIndexOf v l < l.length := by
  induction l with
  | nil => simp at h
  | cons x xs ih =>
    by_cases hx : x = v
    · simp [firstIndexOf, hx]
    · simp only [firstIndexOf, hx, if_false, List.length_cons]
      have : v ∈ xs := by
        rcases List.mem_cons.mp h with h2 | h2
        · exact absurd h2.symm hx
        · exact h2
      exact Nat.succ_lt_succ (ih this)

theorem getD_firstIndexOf {v : Val} {l : List Val} (h : v ∈ l) :
    l.getD (firstIndexOf v l) 0 = v := by
  induction l with
  | nil => simp at h
  | cons x xs ih =>
    by_cases hx : x = v
    · simp [firstIndexOf, hx]
    · simp only [firstIndexOf, hx, if_false, List.getD_cons_succ]
      have : v ∈ xs := by
        rcases List.mem_cons.mp h with h2 | h2
        · exact absurd h2.symm hx
        · exact h2
      exact ih this

theorem firstIndexOf_first {v : Val} {l : List Val} {j : Nat}
    (hj : j < firstIndexOf v l) : l.getD j 0 ≠ v := by
  induction l generalizing j with
  | nil => simp [firstIndexOf] at hj
  | cons x xs ih =>
    by_cases hx : x = v
    · simp [firstIndexOf, hx] at hj
    · simp only [firstIndexOf, hx, if_false] at hj
      cases j with
      | zero => simpa using hx
      | succ k =>
        simp only [List.getD_cons_succ]
        exact ih (by omega)

/-! ### Graph precomputation

Modelled from the spec: `storm::utility::graph` is not under `src/`; §2:
"backward fixed-point routines computing maximal sets of states with
probability exactly 0 / exactly 1 of satisfying an until-formula,
parameterized by minimize/maximize"; §9: "any worklist/traversal order is a
valid implementation choice since the fixpoint is unique and
order-independent" (the routines are therefore modelled as forward
saturation over the rows, making the backward/transpose view an internal
traversal detail). -/

/-- Does the action row put positive mass on a state of `S`
(an explicit sparse-matrix entry whose column carries a set bit)? -/
def rowHitsSet (r : Row) (S : StateSet) : Bool :=
  (List.zip r S).any (fun p => p.2 && decide (p.1 ≠ 0))

/-- Does every explicit entry of the action row lead into `R`? -/
def rowSubset (r : Row) (R : StateSet) : Bool :=
  (List.zip r R).all (fun p => decide (p.1 = 0) || p.2)

/-- The row-group condition of the backward search: universal choice
semantics when minimizing (`performProbGreater0A`), existential when
maximizing (`performProbGreater0E`). -/
def groupCond (minimize : Bool) (g : List Row) (S : StateSet) : Bool :=
  if minimize then g.all (fun r => rowHitsSet r S) else g.any (fun r => rowHitsSet r S)

/-- One saturation step of the probability-greater-0 search: a state enters
if it is already in, or satisfies `phi` and its row group can put positive
mass into the current set. -/
def probGreater0Step (minimize : Bool) (mat : GroupedMatrix) (phi S : StateSet) : StateSet :=
  List.zipWith (fun g (p : Bool × Bool) => p.2 || (p.1 && groupCond minimize g S))
    mat (List.zip phi S)

/-- Modelled from the spec: `performProbGreater0A` (minimize) /
`performProbGreater0E` (maximize), bounded variant — `bound` saturation
steps starting from `psiStates` (§4.2: "probability greater than 0 within
stepBound steps"). -/
def performProbGreater0 (minimize : Bool) (mat : GroupedMatrix) (phi psi : StateSet)
    (bound : Nat) : StateSet :=
  (probGreater0Step minimize mat phi)^[bound] psi

/-- One step of the inner (least) fixpoint of the probability-1 search,
relative to the outer set `R`: a state enters if it is already in, or
satisfies `phi` and its row group (universally when minimizing,
existentially when maximizing) stays inside `R` while putting positive mass
into the current set `T`. -/
def prob1InnerStep (minimize : Bool) (mat : GroupedMatrix) (phi R T : StateSet) : StateSet :=
  List.zipWith
    (fun gp (p : Bool × Bool) =>
      p.2 || (p.1 && (if minimize then gp.all (fun r => rowSubset r R && rowHitsSet r T)
                      else gp.any (fun r => rowSubset r R && rowHitsSet r T))))
    mat (List.zip phi T)

/-- The inner (least) fixpoint: saturate from `psiStates`. -/
def prob1Inner (minimize : Bool) (mat : GroupedMatrix) (phi psi R : StateSet) : StateSet :=
  (prob1InnerStep minimize mat phi R)^[mat.length] psi

/-- Modelled from the spec: `performProb1A` (minimize) / `performProb1E`
(maximize) — the greatest fixpoint of the inner search, iterated from the
full state set (§4.1: "A state is in the probability-0 set iff no (resp.
every) scheduler can reach psi while respecting phi; dually for
probability-1"). -/
def performProb1 (minimize : Bool) (mat : GroupedMatrix) (phi psi : StateSet) : StateSet :=
  (fun R => prob1Inner minimize mat phi psi R)^[mat.length]
    (List.replicate mat.length true)

/-- Modelled from the spec: `performProb01Min` (minimize) /
`performProb01Max` (maximize) — the pair of the probability-0 set (the
complement of the states with probability greater 0) and the probability-1
set. -/
def performProb01 (minimize : Bool) (mat : GroupedMatrix) (phi psi : StateSet) :
    StateSet × StateSet :=
  (complementSet (performProbGreater0 minimize mat phi psi mat.length),
   performProb1 minimize mat phi psi)

/-! ### Lemmas about the graph precomputation -/

theorem zip_getD {α β : Type} (a : List α) (b : List β) (i : Nat) (da : α) (db : β)
    (hia : i < a.length) (hib : i < b.length) :
    (List.zip a b).getD i (da, db) = (a.getD i da, b.getD i db) := by
  induction a generalizing b i with
  | nil => simp at hia
  | cons x xs ih =>
    cases b with
    | nil => simp at hib
    | cons y ys =>
      cases i with
      | zero => rfl
      | succ j =>
        simp only [List.zip_cons_cons, List.getD_cons_succ]
        exact ih ys j (by simpa using Nat.lt_of_succ_lt_succ hia)
          (by simpa using Nat.lt_of_succ_lt_succ hib)

theorem subsetB_of_getD {a b : StateSet} (hlen : a.length = b.length)
    (h : ∀ i, i < a.length → a.getD i false = true → b.getD i false = true) :
    subsetB a b = true := by
  induction a generalizing b with
  | nil =>
    cases b with
    | nil => rfl
    | cons y ys => simp at hlen
  | cons x xs ih =>
    cases b with
    | nil => simp at hlen
    | cons y ys =>
      simp only [subsetB, Bool.and_eq_true]
      constructor
      · cases x with
        | false => rfl
        | true =>
          have := h 0 (by simp) (by rfl)
          simp only [List.getD_cons_zero] at this
          simp [this]
      · apply ih (by simpa using hlen)
        intro i hi hv
        have := h (i + 1) (by simpa using Nat.succ_lt_succ hi) (by simpa using hv)
        simpa using this

theorem probGreater0Step_length (minimize : Bool) (mat : GroupedMatrix) (phi S : StateSet) :
    (probGreater0Step minimize mat phi S).length
      = min mat.length (min phi.length S.length) := by
  simp [probGreater0Step, List.length_zipWith, List.length_zip]

theorem probGreater0Step_getD (minimize : Bool) (mat : GroupedMatrix) (phi S : StateSet)
    (i : Nat) (him : i < mat.length) (hp : i < phi.length) (hs : i < S.length) :
    (probGreater0Step minimize mat phi S).getD i false
      = (S.getD i false || (phi.getD i false && groupCond minimize (mat.getD i []) S)) := by
  unfold probGreater0Step
  rw [zipWith_getD _ mat (List.zip phi S) i [] (false, false) false him
    (by simp [List.length_zip]; omega)]
  rw [zip_getD phi S i false false hp hs]

theorem performProbGreater0_length (minimize : Bool) (mat : GroupedMatrix)
    (phi psi : StateSet) (bound : Nat) (hphi : phi.length = mat.length)
    (hpsi : psi.length = mat.length) :
    (performProbGreater0 minimize mat phi psi bound).length = mat.length := by
  unfold performProbGreater0
  induction bound with
  | zero => simpa using hpsi
  | succ k ih =>
    rw [Function.iterate_succ_apply', probGreater0Step_length, hphi, ih]
    simp

theorem probGreater0Step_inflationary (minimize : Bool) (mat : GroupedMatrix)
    (phi S : StateSet) (hphi : phi.length = mat.length) (hS : S.length = mat.length) :
    subsetB S (probGreater0Step minimize mat phi S) = true := by
  apply subsetB_of_getD
  · rw [probGreater0Step_length, hphi, hS]; simp
  · intro i hi hv
    rw [probGreater0Step_getD minimize mat phi S i (by omega) (by omega) hi, hv]
    simp

theorem psi_subset_performProbGreater0 (minimize : Bool) (mat : GroupedMatrix)
    (phi psi : StateSet) (bound : Nat) (hphi : phi.length = mat.length)
    (hpsi : psi.length = mat.length) :
    subsetB psi (performProbGreater0 minimize mat phi psi bound) = true := by
  induction bound with
  | zero => exact subsetB_refl psi
  | succ k ih =>
    have hlen : (performProbGreater0 minimize mat phi psi k).length = mat.length :=
      performProbGreater0_length minimize mat phi psi k hphi hpsi
    refine subsetB_trans ih ?_
    unfold performProbGreater0
    rw [Function.iterate_succ_apply']
    exact probGreater0Step_inflationary minimize mat phi _ hphi hlen

theorem iterate_fix_of_inflationary (f : StateSet → StateSet) (n : Nat)
    (hflen : ∀ T, T.length = n → (f T).length = n)
    (hinfl : ∀ T, T.length = n → subsetB T (f T) = true)
    (S : StateSet) (hS : S.length = n) :
    f (f^[n] S) = f^[n] S := by
  have hlen : ∀ k, (f^[k] S).length = n := by
    intro k
    induction k with
    | zero => simpa using hS
    | succ j ih => rw [Function.iterate_succ_apply']; exact hflen _ ih
  by_cases hstab : ∃ k, k < n ∧ f (f^[k] S) = f^[k] S
  · obtain ⟨k, hk, hfix⟩ := hstab
    have h1 : f^[n] S = f^[k] S := by
      have h2 : f^[n] S = f^[n - k] (f^[k] S) := by
        rw [← Function.iterate_add_apply]
        congr 1
        omega
      rw [h2, Function.iterate_fixed hfix]
    rw [h1, hfix]
  · push_neg at hstab
    have hmono : ∀ k, k ≤ n → k + numTrue S ≤ numTrue (f^[k] S) := by
      intro k hk
      induction k with
      | zero => simp
      | succ j ih =>
        have hj : j < n := by omega
        have hne : f (f^[j] S) ≠ f^[j] S := hstab j hj
        have hsub : subsetB (f^[j] S) (f (f^[j] S)) = true := hinfl _ (hlen j)
        have hlt := subsetB_numTrue_lt hsub (fun hcon => hne hcon.symm)
        have ihj := ih (by omega)
        rw [Function.iterate_succ_apply']
        omega
    have hfull : numTrue (f^[n] S) = n := by
      have h1 := hmono n le_rfl
      have h2 := numTrue_le_length (f^[n] S)
      rw [hlen n] at h2
      omega
    have hsub := hinfl (f^[n] S) (hlen n)
    have hflenn := hflen (f^[n] S) (hlen n)
    have hle := subsetB_numTrue_le hsub
    have h2 := numTrue_le_length (f (f^[n] S))
    rw [hflenn] at h2
    have heq : numTrue (f^[n] S) = numTrue (f (f^[n] S)) := by omega
    exact (subsetB_antisymm_of_length hsub heq).symm

theorem rowHitsSet_mono {r : Row} {S T : StateSet} (hsub : subsetB S T = true)
    (h : rowHitsSet r S = true) : rowHitsSet r T = true := by
  induction r generalizing S T with
  | nil => simp [rowHitsSet] at h
  | cons a as ih =>
    cases S with
    | nil => simp [rowHitsSet] at h
    | cons s ss =>
      cases T with
      | nil => simp [subsetB] at hsub
      | cons t ts =>
        simp only [subsetB, Bool.and_eq_true] at hsub
        simp only [rowHitsSet, List.zip_cons_cons, List.any_cons, Bool.or_eq_true] at h ⊢
        rcases h with h | h
        · left
          have hparts := Bool.and_eq_true_iff.mp h
          have hs : s = true := hparts.1
          have ht : t = true := by
            have := hsub.1
            rw [hs] at this
            simpa using this
          rw [ht]
          simpa using hparts.2
        · right
          exact ih hsub.2 h

theorem groupCond_mono {minimize : Bool} {g : List Row} {S T : StateSet}
    (hsub : subsetB S T = true) (h : groupCond minimize g S = true) :
    groupCond minimize g T = true := by
  cases minimize with
  | true =>
    simp only [groupCond, if_true, List.all_eq_true] at h ⊢
    intro r hr
    exact rowHitsSet_mono hsub (h r hr)
  | false =>
    simp only [groupCond, Bool.false_eq_true, if_false, List.any_eq_true] at h ⊢
    obtain ⟨r, hr, hhit⟩ := h
    exact ⟨r, hr, rowHitsSet_mono hsub hhit⟩

theorem prob1InnerStep_length (minimize : Bool) (mat : GroupedMatrix) (phi R T : StateSet) :
    (prob1InnerStep minimize mat phi R T).length
      = min mat.length (min phi.length T.length) := by
  simp [prob1InnerStep, List.length_zipWith, List.length_zip]

theorem prob1InnerStep_getD (minimize : Bool) (mat : GroupedMatrix) (phi R T : StateSet)
    (i : Nat) (him : i < mat.length) (hp : i < phi.length) (ht : i < T.length) :
    (prob1InnerStep minimize mat phi R T).getD i false
      = (T.getD i false || (phi.getD i false &&
          (if minimize then (mat.getD i []).all (fun r => rowSubset r R && rowHitsSet r T)
           else (mat.getD i []).any (fun r => rowSubset r R && rowHitsSet r T)))) := by
  unfold prob1InnerStep
  rw [zipWith_getD _ mat (List.zip phi T) i [] (false, false) false him
    (by simp [List.length_zip]; omega)]
  rw [zip_getD phi T i false false hp ht]

theorem prob1Inner_iterate_length (minimize : Bool) (mat : GroupedMatrix)
    (phi R psi : StateSet) (k : Nat) (hphi : phi.length = mat.length)
    (hpsi : psi.length = mat.length) :
    ((prob1InnerStep minimize mat phi R)^[k] psi).length = mat.length := by
  induction k with
  | zero => simpa using hpsi
  | succ j ih =>
    rw [Function.iterate_succ_apply', prob1InnerStep_length, hphi, ih]
    simp

theorem prob1Inner_length (minimize : Bool) (mat : GroupedMatrix) (phi psi R : StateSet)
    (hphi : phi.length = mat.length) (hpsi : psi.length = mat.length) :
    (prob1Inner minimize mat phi psi R).length = mat.length :=
  prob1Inner_iterate_length minimize mat phi R psi mat.length hphi hpsi

theorem performProb1_length (minimize : Bool) (mat : GroupedMatrix) (phi psi : StateSet)
    (hphi : phi.length = mat.length) (hpsi : psi.length = mat.length) :
    (performProb1 minimize mat phi psi).length = mat.length := by
  unfold performProb1
  cases hn : mat.length with
  | zero => simp
  | succ k =>
    rw [Function.iterate_succ_apply']
    rw [← hn]
    exact prob1Inner_length minimize mat phi psi _ hphi hpsi

theorem performProb1_subset_performProbGreater0 (minimize : Bool) (mat : GroupedMatrix)
    (phi psi : StateSet) (hphi : phi.length = mat.length) (hpsi : psi.length = mat.length) :
    subsetB (performProb1 minimize mat phi psi)
      (performProbGreater0 minimize mat phi psi mat.length) = true := by
  have hGlen : (performProbGreater0 minimize mat phi psi mat.length).length = mat.length :=
    performProbGreater0_length minimize mat phi psi mat.length hphi hpsi
  have hGfix : probGreater0Step minimize mat phi
      (performProbGreater0 minimize mat phi psi mat.length)
      = performProbGreater0 minimize mat phi psi mat.length := by
    apply iterate_fix_of_inflationary (probGreater0Step minimize mat phi) mat.length
    · intro T hT
      rw [probGreater0Step_length, hphi, hT]
      simp
    · intro T hT
      exact probGreater0Step_inflationary minimize mat phi T hphi hT
    · exact hpsi
  have hpsiG : subsetB psi (performProbGreater0 minimize mat phi psi mat.length) = true :=
    psi_subset_performProbGreater0 minimize mat phi psi mat.length hphi hpsi
  have hinner : ∀ R T, T.length = mat.length →
      subsetB T (performProbGreater0 minimize mat phi psi mat.length) = true →
      subsetB (prob1InnerStep minimize mat phi R T)
        (performProbGreater0 minimize mat phi psi mat.length) = true := by
    intro R T hT hTG
    apply subsetB_of_getD
    · rw [prob1InnerStep_length, hphi, hT, hGlen]
      simp
    · intro i hi hval
      rw [prob1InnerStep_length, hphi, hT] at hi
      simp only [min_self] at hi
      rw [prob1InnerStep_getD minimize mat phi R T i hi (by omega) (by omega)] at hval
      rcases Bool.or_eq_true_iff.mp hval with hval | hval
      · exact subsetB_getD hTG i hval
      · have hparts := Bool.and_eq_true_iff.mp hval
        have hgc : groupCond minimize (mat.getD i [])
            (performProbGreater0 minimize mat phi psi mat.length) = true := by
          have hgcT : groupCond minimize (mat.getD i []) T = true := by
            cases minimize with
            | true =>
              have hall := hparts.2
              simp only [if_true, List.all_eq_true] at hall
              simp only [groupCond, if_true, List.all_eq_true]
              intro r hr
              exact (Bool.and_eq_true_iff.mp (hall r hr)).2
            | false =>
              have hany := hparts.2
              simp only [Bool.false_eq_true, if_false, List.any_eq_true] at hany
              obtain ⟨r, hr, hcond⟩ := hany
              simp only [groupCond, Bool.false_eq_true, if_false, List.any_eq_true]
              exact ⟨r, hr, (Bool.and_eq_true_iff.mp hcond).2⟩
          exact groupCond_mono hTG hgcT
        have hstep := congrArg (fun s => s.getD i false) hGfix
        simp only at hstep
        rw [probGreater0Step_getD minimize mat phi _ i hi (by omega) (by omega)] at hstep
        rw [hparts.1, hgc] at hstep
        simpa using hstep.symm
  have hiterlen : ∀ R k, ((prob1InnerStep minimize mat phi R)^[k] psi).length = mat.length := by
    intro R k
    induction k with
    | zero => simpa using hpsi
    | succ j ih =>
      rw [Function.iterate_succ_apply', prob1InnerStep_length, hphi, ih]
      simp
  have hinnerIter : ∀ R k,
      subsetB ((prob1InnerStep minimize mat phi R)^[k] psi)
        (performProbGreater0 minimize mat phi psi mat.length) = true := by
    intro R k
    induction k with
    | zero => exact hpsiG
    | succ j ih =>
      rw [Function.iterate_succ_apply']
      exact hinner R _ (hiterlen R j) ih
  unfold performProb1
  cases hn : mat.length with
  | zero =>
    have hpsi0 : psi = [] := List.length_eq_zero.mp (by omega)
    subst hpsi0
    simp [performProbGreater0, subsetB]
  | succ k =>
    rw [Function.iterate_succ_apply']
    rw [← hn]
    exact hinnerIter _ _

theorem prob01_disjoint (minimize : Bool) (mat : GroupedMatrix) (phi psi : StateSet)
    (hphi : phi.length = mat.length) (hpsi : psi.length = mat.length) (i : Nat) :
    ¬((performProb01 minimize mat phi psi).1.getD i false = true ∧
      (performProb01 minimize mat phi psi).2.getD i false = true) := by
  rintro ⟨h0, h1⟩
  have hG := subsetB_getD
    (performProb1_subset_performProbGreater0 minimize mat phi psi hphi hpsi) i h1
  have hcomp : (performProbGreater0 minimize mat phi psi mat.length).getD i false = false :=
    complementSet_getD_true h0
  rw [hG] at hcomp
  simp at hcomp

/-- The exception classes raised by the checker (source includes of
`AbstractModelChecker.cpp` and the throw sites of
`SparseMdpPrctlModelChecker`). -/
inductive CheckError where
  | invalidArgument (msg : String)
  | invalidProperty (msg : String)
  | notImplemented (msg : String)
  | internalTypeError (msg : String)
deriving DecidableEq

/-- Modelled from the spec: §7 names the error kind `MissingRewardModel`
("reward-formula checked against a model lacking the required reward
component"); in the source this kind is realised as
`storm::exceptions::InvalidPropertyException` raised with a
missing-reward-model message. -/
def CheckError.isMissingRewardModel : CheckError → Bool
  | .invalidProperty msg =>
      msg = "Missing reward model for formula." ||
      msg = "Missing (state-based) reward model for formula."
  | _ => false

/-- Modelled from the spec: the equation-solver collaborator operation
`solveEquationSystem(minimize, matrix, x, b, rowGroups)` (§6), which "solves
to the solver's own convergence criterion" and about whose output "this
layer makes no precision claim beyond what the solver returns" (§4.1) — an
arbitrary function from the optimization direction, the restricted
submatrix and the grouped right-hand side to the solution vector over the
retained states. -/
abbrev SolveEquationSystem := Bool → GroupedMatrix → List Vec → Vec

/-- Modelled from the spec: the equation-solver collaborator operation
`performMatrixVectorMultiplication(minimize, matrix, vectorInOut,
rowGroups, optionalAdditiveVector, iterationCount)` (§6): `iterationCount`
"synchronous extremal reduction sweeps (each sweep reduces all action-rows
of a state to the extremal one)" (§4.2), each sweep multiplying every
action row with the vector, adding the optional per-row additive vector and
reducing every row group to its extremal entry. -/
def sweepOnce (minimize : Bool) (mat : GroupedMatrix) (add : Option (List Vec)) (x : Vec) :
    Vec :=
  match add with
  | none => mat.map (fun g => listExt minimize (g.map (fun r => rowDot r x)))
  | some b =>
      (List.zip mat b).map
        (fun p => listExt minimize (List.zipWith (fun r av => rowDot r x + av) p.1 p.2))

/-- Modelled from the spec: see `sweepOnce`; performs exactly
`iterationCount` sweeps. -/
def performMatrixVectorMultiplication (minimize : Bool) (mat : GroupedMatrix) (x : Vec)
    (add : Option (List Vec)) (iterationCount : Nat) : Vec :=
  (sweepOnce minimize mat add)^[iterationCount] x

/-- The sparse MDP model handle consumed by the checker (§6: "state count,
row-grouped transition matrix, its backward/transpose view, initial-state
set, optional state-reward vector and/or transition-reward matrix"; the
backward view is an internal traversal device of the graph routines and
carries no separate data). -/
structure Mdp where
  matrix : GroupedMatrix
  initialStates : StateSet
  stateRewards : Option Vec
  transitionRewards : Option GroupedMatrix

def Mdp.numberOfStates (m : Mdp) : Nat := m.matrix.length

def Mdp.hasStateRewards (m : Mdp) : Bool := m.stateRewards.isSome

def Mdp.hasTransitionRewards (m : Mdp) : Bool := m.transitionRewards.isSome

/-! ### The checker (embedded from the source,
`SparseMdpPrctlModelChecker`) -/

/-- The P/R no-bound operator formula as seen by `checkNoBoundOperator`
(source lines 307–317): whether it declares an optimization direction,
whether that direction is minimize, and its `check` callback, which runs
against the checker whose only mutable state is the minimum-operator stack
(a C++ exception does not roll the stack back, so the callback returns its
outcome together with the stack it leaves behind). -/
structure NoBoundFormula where
  isOptimalityOperator : Bool
  isMinimumOperator : Bool
  check : List Bool → (Except CheckError Vec) × List Bool

/-- Source `SparseMdpPrctlModelChecker::checkNoBoundOperator` (lines
307–317): reject a formula without declared optimality, push the
minimize/maximize indicator, run the subformula check, pop on normal
return.  The state is the `minimumOperatorStack` member (line 823); the
returned pair is (outcome, stack after the call). -/
def checkNoBoundOperator (formula : NoBoundFormula) (minimumOperatorStack : List Bool) :
    (Except CheckError Vec) × List Bool :=
  if !formula.isOptimalityOperator then
    (.error (.invalidArgument "Formula does not specify neither min nor max optimality, which is not meaningful over nondeterministic models."),
     minimumOperatorStack)
  else
    match formula.check (formula.isMinimumOperator :: minimumOperatorStack) with
    | (.ok result, afterStack) => (.ok result, afterStack.tail)
    | (.error e, afterStack) => (.error e, afterStack)

/-- The maybe-states of the unbounded-until computation: the complement of
the union of the computed probability-0 and probability-1 sets (source line
534). -/
def untilMaybeStates (minimize : Bool) (mat : GroupedMatrix) (phi psi : StateSet) : StateSet :=
  complementSet (unionSet (performProb01 minimize mat phi psi).1
    (performProb01 minimize mat phi psi).2)

/-- The per-action one-step lookahead table of the scheduler extraction
(source lines 788–806): every action row is multiplied with the final
result vector, and the reward contributions are added when reward
components are supplied. -/
def schedulerLookahead (mat : GroupedMatrix) (result : Vec) (stateRewardVector : Option Vec)
    (transitionRewardMatrix : Option GroupedMatrix) : List Vec :=
  let nondeterministicResult := mat.map (fun g => g.map (fun r => rowDot r result))
  match stateRewardVector, transitionRewardMatrix with
  | none, none => nondeterministicResult
  | none, some trm => addGrouped nondeterministicResult (pointwiseProductRowSums mat trm)
  | some srv, none => addGrouped nondeterministicResult (selectRepeated mat srv)
  | some srv, some trm =>
      addGrouped nondeterministicResult
        (addGrouped (pointwiseProductRowSums mat trm) (selectRepeated mat srv))

/-- Source `SparseMdpPrctlModelChecker::computeExtremalScheduler` (lines
787–817): compute the one-step lookahead per action row from the final
result vector (plus reward contributions when supplied) and reduce every
row group to the arg-min (minimize) / arg-max (maximize), first index on
ties (`reduceVectorMin`/`reduceVectorMax` record the first row attaining
the extremum). -/
def computeExtremalScheduler (minimize : Bool) (mat : GroupedMatrix) (result : Vec)
    (stateRewardVector : Option Vec) (transitionRewardMatrix : Option GroupedMatrix) :
    List Nat :=
  (schedulerLookahead mat result stateRewardVector transitionRewardMatrix).map
    (argExt minimize)

/-- Source `SparseMdpPrctlModelChecker::computeUnboundedUntilProbabilities`
(lines 520–585). -/
def computeUnboundedUntilProbabilities (minimize : Bool) (transitionMatrix : GroupedMatrix)
    (initialStates phiStates psiStates : StateSet) (solveEquationSystem : SolveEquationSystem)
    (qualitative : Bool) : Vec × List Nat :=
  let numberOfStates := phiStates.length
  let statesWithProbability0 := (performProb01 minimize transitionMatrix phiStates psiStates).1
  let statesWithProbability1 := (performProb01 minimize transitionMatrix phiStates psiStates).2
  let maybeStates := untilMaybeStates minimize transitionMatrix phiStates psiStates
  let result : Vec := List.replicate numberOfStates 0
  let result :=
    if isDisjointFrom initialStates maybeStates || qualitative then
      setVectorValuesConst result maybeStates (1/2 : Val)
    else
      let submatrix := getSubmatrix maybeStates transitionMatrix
      let b := getConstrainedRowSumVector maybeStates transitionMatrix statesWithProbability1
      let x := solveEquationSystem minimize submatrix b
      setVectorValuesList result maybeStates x
  let result := setVectorValuesConst result statesWithProbability0 (0 : Val)
  let result := setVectorValuesConst result statesWithProbability1 (1 : Val)
  (result, computeExtremalScheduler minimize transitionMatrix result none none)

/-- Source `SparseMdpPrctlModelChecker::checkUntil` (lines 587–589). -/
def checkUntil (m : Mdp) (solveEquationSystem : SolveEquationSystem) (minimize : Bool)
    (phiStates psiStates : StateSet) (qualitative : Bool) : Vec × List Nat :=
  computeUnboundedUntilProbabilities minimize m.matrix m.initialStates phiStates psiStates
    solveEquationSystem qualitative

/-- Source `SparseMdpPrctlModelChecker::checkBoundedUntil` (lines 332–378);
`minimize` is the top of the minimum-operator stack. -/
def checkBoundedUntil (m : Mdp) (minimize : Bool) (phiStates psiStates : StateSet)
    (stepBound : Nat) (qualitative : Bool) : Vec :=
  let result : Vec := List.replicate m.numberOfStates 0
  let statesWithProbabilityGreater0 :=
    performProbGreater0 minimize m.matrix phiStates psiStates stepBound
  if isDisjointFrom m.initialStates statesWithProbabilityGreater0 then
    setVectorValuesConst result statesWithProbabilityGreater0 (1/2 : Val)
  else
    let submatrix := getSubmatrix statesWithProbabilityGreater0 m.matrix
    let rightStatesInReducedSystem := restrict statesWithProbabilityGreater0 psiStates
    let submatrix := makeRowsAbsorbing rightStatesInReducedSystem submatrix
    let subresult :=
      setVectorValuesConst (List.replicate (numTrue statesWithProbabilityGreater0) (0 : Val))
        rightStatesInReducedSystem (1 : Val)
    let subresult := performMatrixVectorMultiplication minimize submatrix subresult none stepBound
    let result := setVectorValuesList result statesWithProbabilityGreater0 subresult
    setVectorValuesConst result (complementSet statesWithProbabilityGreater0) (0 : Val)

/-- Source `SparseMdpPrctlModelChecker::checkInstantaneousReward` (lines
602–615): requires a state-based reward model, then `bound` reduction
sweeps seeded with the state-reward vector and no additive vector. -/
def checkInstantaneousReward (m : Mdp) (minimize : Bool) (bound : Nat) :
    Except CheckError Vec :=
  match m.stateRewards with
  | none => .error (.invalidProperty "Missing (state-based) reward model for formula.")
  | some stateRewardVector =>
      .ok (performMatrixVectorMultiplication minimize m.matrix stateRewardVector none bound)

/-- The per-row reward increment of the cumulative-reward sweep (source
lines 636–644): the pointwise-product row sums of the transition rewards
plus the state reward, or the state reward alone (the source then hands the
per-state reward vector to the per-row addition; it is aligned per action
row here, which is where the row-indexed sweep consumes it). -/
def totalRewardVectorOf (m : Mdp) : List Vec :=
  match m.transitionRewards with
  | some trm =>
      match m.stateRewards with
      | some srv =>
          addGrouped (pointwiseProductRowSums m.matrix trm) (selectRepeated m.matrix srv)
      | none => pointwiseProductRowSums m.matrix trm
  | none =>
      match m.stateRewards with
      | some srv => selectRepeated m.matrix srv
      | none => m.matrix.map (fun g => g.map (fun _ => (0 : Val)))

/-- Source `SparseMdpPrctlModelChecker::checkCumulativeReward` (lines
628–657): requires at least one reward component, then `bound` reduction
sweeps with the per-step reward increment added before each reduction,
seeded with the state rewards or the null vector. -/
def checkCumulativeReward (m : Mdp) (minimize : Bool) (bound : Nat) :
    Except CheckError Vec :=
  if !(m.hasStateRewards) && !(m.hasTransitionRewards) then
    .error (.invalidProperty "Missing reward model for formula.")
  else
    let totalRewardVector := totalRewardVectorOf m
    let result :=
      match m.stateRewards with
      | some srv => srv
      | none => List.replicate m.numberOfStates (0 : Val)
    .ok (performMatrixVectorMultiplication minimize m.matrix result (some totalRewardVector)
      bound)

/-- The infinity states of the reachability-reward computation (source
lines 697–704): the complement of the states that (universally when
minimizing, existentially when maximizing) reach the target with
probability 1. -/
def reachRewardInfinityStates (m : Mdp) (minimize : Bool) (targetStates : StateSet) :
    StateSet :=
  complementSet
    (performProb1 minimize m.matrix (List.replicate m.numberOfStates true) targetStates)

/-- The maybe-states of the reachability-reward computation (source line
705). -/
def reachRewardMaybeStates (m : Mdp) (minimize : Bool) (targetStates : StateSet) : StateSet :=
  interSet (complementSet targetStates)
    (complementSet (reachRewardInfinityStates m minimize targetStates))

/-- Source `SparseMdpPrctlModelChecker::checkReachabilityReward` (lines
689–776).  `infinityValue` stands for the collaborator constant
`storm::utility::constGetInfinity<Type>()` (modelled from the spec: the
reward-∞ marker of the value type, §3). -/
def checkReachabilityReward (m : Mdp) (solveEquationSystem : SolveEquationSystem)
    (minimize : Bool) (targetStates : StateSet) (qualitative : Bool) (infinityValue : Val) :
    Except CheckError (Vec × List Nat) :=
  if !(m.hasStateRewards || m.hasTransitionRewards) then
    .error (.invalidProperty "Missing reward model for formula.")
  else
    let infinityStates := reachRewardInfinityStates m minimize targetStates
    let maybeStates := reachRewardMaybeStates m minimize targetStates
    let result : Vec := List.replicate m.numberOfStates 0
    let result :=
      if isDisjointFrom m.initialStates maybeStates then
        setVectorValuesConst result maybeStates (1 : Val)
      else
        let submatrix := getSubmatrix maybeStates m.matrix
        let b :=
          match m.transitionRewards with
          | some trm =>
              let pointwiseProductRowSumVector := pointwiseProductRowSums m.matrix trm
              let b0 := restrict maybeStates pointwiseProductRowSumVector
              match m.stateRewards with
              | some srv => addGrouped b0 (restrict maybeStates (selectRepeated m.matrix srv))
              | none => b0
          | none =>
              match m.stateRewards with
              | some srv => restrict maybeStates (selectRepeated m.matrix srv)
              | none => restrict maybeStates (m.matrix.map (fun g => g.map (fun _ => (0 : Val))))
        let x := solveEquationSystem minimize submatrix b
        setVectorValuesList result maybeStates x
    let result := setVectorValuesConst result targetStates (0 : Val)
    let result := setVectorValuesConst result infinityStates infinityValue
    .ok (result,
      computeExtremalScheduler minimize m.matrix result m.stateRewards m.transitionRewards)

/-- The bounded-until computation as the specification describes it (§4.2,
claim wording): restrict to the states with probability greater 0 of
reaching psi within `stepBound` steps (universal choice semantics when
minimizing, existential when maximizing), make the rows of psi-states
absorbing in the restricted submatrix, seed the vector with 1 on psi-states
and 0 elsewhere, perform exactly `stepBound` synchronous extremal
matrix-vector reduction sweeps, and give every discarded state 0. -/
def checkBoundedUntilDescribed (m : Mdp) (minimize : Bool) (phiStates psiStates : StateSet)
    (stepBound : Nat) : Vec :=
  let retained := performProbGreater0 minimize m.matrix phiStates psiStates stepBound
  let submatrix := makeRowsAbsorbing (restrict retained psiStates)
    (getSubmatrix retained m.matrix)
  let seed := setVectorValuesConst (List.replicate (numTrue retained) (0 : Val))
    (restrict retained psiStates) (1 : Val)
  let final := performMatrixVectorMultiplication minimize submatrix seed none stepBound
  setVectorValuesConst
    (setVectorValuesList (List.replicate m.numberOfStates (0 : Val)) retained final)
    (complementSet retained) (0 : Val)

/-! ### Claim theorems -/

section ClaimEvaluation

set_option allowUnsafeReducibility true

attribute [local semireducible] Rat.mul Rat.add Rat.inv Rat.sub

/-- **C1**: For every MDP model that has neither a state-reward vector nor a
transition-reward matrix, calling the cumulative-reward solver
(`checkCumulativeReward`) or the reachability-reward solver
(`checkReachabilityReward`) fails with the MissingRewardModel error and
yields no result vector; the failure is uniform in the direction, the
bound, the target set, the qualitative flag and the equation-solver
collaborator, so it happens before any numeric work. -/
theorem missing_reward_model_rejected_before_solving (m : Mdp)
    (hsr : m.stateRewards = none) (htr : m.transitionRewards = none) :
    (∀ minimize bound, ∃ e, checkCumulativeReward m minimize bound = .error e ∧
      e.isMissingRewardModel = true) ∧
    (∀ solveEq minimize targetStates qualitative infinityValue,
      ∃ e, checkReachabilityReward m solveEq minimize targetStates qualitative infinityValue
          = .error e ∧ e.isMissingRewardModel = true) := by
  have h1 : m.hasStateRewards = false := by simp [Mdp.hasStateRewards, hsr]
  have h2 : m.hasTransitionRewards = false := by simp [Mdp.hasTransitionRewards, htr]
  constructor
  · intro minimize bound
    refine ⟨.invalidProperty "Missing reward model for formula.", ?_, by decide⟩
    simp [checkCumulativeReward, h1, h2]
  · intro solveEq minimize targetStates qualitative infinityValue
    refine ⟨.invalidProperty "Missing reward model for formula.", ?_, by decide⟩
    simp [checkReachabilityReward, h1, h2]

theorem missing_reward_model_rejected_before_solving_witness :
    ∃ e, checkCumulativeReward ⟨[[[1]]], [true], none, none⟩ true 3 = .error e ∧
      e.isMissingRewardModel = true :=
  (missing_reward_model_rejected_before_solving ⟨[[[1]]], [true], none, none⟩ rfl rfl).1
    true 3

/-- **C2** (counterexample): at a formula that declares an optimality
direction but whose subformula check raises an exception (leaving the stack
exactly as it received it), the minimum-operator stack after
`checkNoBoundOperator` is one element deeper than before the call: the push
is not matched by a pop on the exception exit path. -/
theorem push_pop_not_exception_safe_counterexample :
    (checkNoBoundOperator
        ⟨true, true, fun s => (.error (.invalidArgument "inner failure"), s)⟩ []).2.length
      ≠ ([] : List Bool).length := by decide

/-- **C2** (amended): for a formula that declares an optimality direction
and whose subformula check leaves the stack as it received it, the pushed
minimize/maximize indicator is popped only on the normal-return exit path
of `checkNoBoundOperator` (restoring the entry stack); on the exit path
where the subformula check raises an exception no pop happens, and the
stack is left one element deeper with the pushed indicator on top. -/
theorem push_pop_balanced_on_normal_return_only
    (formula : NoBoundFormula) (stack : List Bool)
    (hopt : formula.isOptimalityOperator = true)
    (hbal : ∀ s, (formula.check s).2 = s) :
    ((∃ r, (formula.check (formula.isMinimumOperator :: stack)).1 = .ok r) →
      (checkNoBoundOperator formula stack).2 = stack) ∧
    (∀ e, (formula.check (formula.isMinimumOperator :: stack)).1 = .error e →
      (checkNoBoundOperator formula stack).2 = formula.isMinimumOperator :: stack) := by
  rcases hchk : formula.check (formula.isMinimumOperator :: stack) with ⟨o, st⟩
  have hst : st = formula.isMinimumOperator :: stack := by
    have hb := hbal (formula.isMinimumOperator :: stack)
    rw [hchk] at hb
    exact hb
  subst hst
  constructor
  · rintro ⟨r, hr⟩
    simp only at hr
    subst hr
    simp [checkNoBoundOperator, hopt, hchk]
  · intro e he
    simp only at he
    subst he
    simp [checkNoBoundOperator, hopt, hchk]

theorem push_pop_balanced_on_normal_return_only_witness :
    (checkNoBoundOperator ⟨true, false, fun s => (.ok [1], s)⟩ []).2 = ([] : List Bool) :=
  (push_pop_balanced_on_normal_return_only ⟨true, false, fun s => (.ok [1], s)⟩ [] rfl
    (fun _ => rfl)).1 ⟨[1], rfl⟩

/-- **C3**: for every P/R no-bound formula that declares neither a minimize
nor a maximize direction, `checkNoBoundOperator` raises InvalidArgument,
leaves the minimum-operator stack untouched (nothing was pushed), produces
no result vector, and behaves identically for every such formula — in
particular independently of its subformula check, which is therefore never
invoked. -/
theorem no_direction_rejected_before_any_computation
    (formula : NoBoundFormula) (stack : List Bool)
    (h : formula.isOptimalityOperator = false) :
    checkNoBoundOperator formula stack =
      (.error (.invalidArgument "Formula does not specify neither min nor max optimality, which is not meaningful over nondeterministic models."),
       stack) ∧
    (∀ g : NoBoundFormula, g.isOptimalityOperator = false →
      checkNoBoundOperator g stack = checkNoBoundOperator formula stack) := by
  constructor
  · simp [checkNoBoundOperator, h]
  · intro g hg
    simp [checkNoBoundOperator, h, hg]

theorem no_direction_rejected_before_any_computation_witness :
    checkNoBoundOperator ⟨false, true, fun s => (.ok [], s)⟩ [true] =
      (.error (.invalidArgument "Formula does not specify neither min nor max optimality, which is not meaningful over nondeterministic models."),
       [true]) :=
  (no_direction_rejected_before_any_computation ⟨false, true, fun s => (.ok [], s)⟩
    [true] rfl).1

/-- **C10**: `checkInstantaneousReward` requires a state-based reward model
specifically: a model with a transition-reward matrix but no state-reward
vector is rejected with the missing-(state-based)-reward exception even
though it has a reward component; and the solver never consults transition
rewards — any two models agreeing on everything except the
transition-reward matrix obtain the same outcome. -/
theorem instantaneous_reward_requires_state_rewards
    (m : Mdp) (minimize : Bool) (bound : Nat)
    (hsr : m.stateRewards = none) (htr : m.transitionRewards.isSome = true) :
    checkInstantaneousReward m minimize bound =
      .error (.invalidProperty "Missing (state-based) reward model for formula.") ∧
    (∀ m1 m2 : Mdp, m1.matrix = m2.matrix → m1.initialStates = m2.initialStates →
      m1.stateRewards = m2.stateRewards →
      checkInstantaneousReward m1 minimize bound
        = checkInstantaneousReward m2 minimize bound) := by
  constructor
  · simp [checkInstantaneousReward, hsr]
  · intro m1 m2 h1 h2 h3
    unfold checkInstantaneousReward
    rw [h3, h1]

theorem instantaneous_reward_requires_state_rewards_witness :
    checkInstantaneousReward ⟨[[[1]]], [true], none, some [[[1]]]⟩ false 2 =
      .error (.invalidProperty "Missing (state-based) reward model for formula.") :=
  (instantaneous_reward_requires_state_rewards ⟨[[[1]]], [true], none, some [[[1]]]⟩
    false 2 rfl rfl).1

/-- **C9**: `checkReachabilityReward` never reads its qualitative
parameter: the result vector and the scheduler are identical for
`qualitative = true` and `qualitative = false`; whether the equation solver
is skipped depends only on the initial states being disjoint from the
maybe-states, and on that early-exit path the outcome is independent of the
solver collaborator and every maybe-state receives the in-domain reward
value 1 as sentinel. -/
theorem reachability_reward_ignores_qualitative
    (m : Mdp) (solveEq : SolveEquationSystem) (minimize : Bool) (targetStates : StateSet)
    (infinityValue : Val) (htl : targetStates.length = m.numberOfStates) :
    (∀ q1 q2 : Bool,
      checkReachabilityReward m solveEq minimize targetStates q1 infinityValue =
      checkReachabilityReward m solveEq minimize targetStates q2 infinityValue) ∧
    (isDisjointFrom m.initialStates (reachRewardMaybeStates m minimize targetStates) = true →
      (∀ solveEq2 qualitative,
        checkReachabilityReward m solveEq2 minimize targetStates qualitative infinityValue =
        checkReachabilityReward m solveEq minimize targetStates qualitative infinityValue) ∧
      (∀ qualitative res sched,
        checkReachabilityReward m solveEq minimize targetStates qualitative infinityValue
          = .ok (res, sched) →
        ∀ i, (reachRewardMaybeStates m minimize targetStates).getD i false = true →
          res.getD i 0 = 1)) := by
  constructor
  · intro q1 q2
    rfl
  · intro hdisj
    by_cases hrw : (m.hasStateRewards || m.hasTransitionRewards) = true
    · constructor
      · intro solveEq2 qualitative
        simp only [checkReachabilityReward, hrw, Bool.not_true, Bool.false_eq_true,
          if_false, hdisj, if_true]
      · intro qualitative res sched hres i hmay
        simp only [checkReachabilityReward, hrw, Bool.not_true, Bool.false_eq_true,
          if_false, hdisj, if_true, Except.ok.injEq, Prod.mk.injEq] at hres
        obtain ⟨hres1, _⟩ := hres
        have hinter := interSet_getD_true (by simpa [reachRewardMaybeStates] using hmay)
        have htfalse : targetStates.getD i false = false := complementSet_getD_true hinter.1
        have hifalse : (reachRewardInfinityStates m minimize targetStates).getD i false
            = false := complementSet_getD_true hinter.2
        have hlen_inf : (reachRewardInfinityStates m minimize targetStates).length
            = m.numberOfStates := by
          simp only [reachRewardInfinityStates, complementSet_length, Mdp.numberOfStates]
          exact performProb1_length minimize m.matrix _ targetStates (by simp)
            (by simpa [Mdp.numberOfStates] using htl)
        have hin : i < m.numberOfStates := by
          have h2 := getD_true_lt_length _ _ hmay
          simp only [reachRewardMaybeStates, interSet, List.length_zipWith,
            complementSet_length, hlen_inf, htl] at h2
          omega
        rw [← hres1]
        rw [setVectorValuesConst_getD_false _ _ _ i 0 hifalse]
        rw [setVectorValuesConst_getD_false _ _ _ i 0 htfalse]
        rw [setVectorValuesConst_getD_true _ _ _ i 0
          (by rw [List.length_replicate]; exact hin) hmay]
    · have hrw2 : (m.hasStateRewards || m.hasTransitionRewards) = false := by
        cases h : (m.hasStateRewards || m.hasTransitionRewards) with
        | false => rfl
        | true => exact absurd h hrw
      constructor
      · intro solveEq2 qualitative
        simp [checkReachabilityReward, hrw2]
      · intro qualitative res sched hres
        simp [checkReachabilityReward, hrw2] at hres

theorem reachability_reward_ignores_qualitative_witness :
    checkReachabilityReward ⟨[[[1,0]],[[0,1]]], [true,false], some [1,1], none⟩
        (fun _ _ _ => [5]) false [false,true] true 0 =
      checkReachabilityReward ⟨[[[1,0]],[[0,1]]], [true,false], some [1,1], none⟩
        (fun _ _ _ => []) false [false,true] true 0 :=
  ((reachability_reward_ignores_qualitative
      ⟨[[[1,0]],[[0,1]]], [true,false], some [1,1], none⟩ (fun _ _ _ => [])
      false [false,true] 0 rfl).2 (by decide)).1 (fun _ _ _ => [5]) true

/-- **C4**: in `computeUnboundedUntilProbabilities`, whenever the
qualitative flag is set or the initial states are disjoint from the
maybe-states, the outcome is independent of the equation-solver
collaborator (the solver is not invoked) and every maybe-state of the
result vector holds the sentinel value, the literal probability 1/2. -/
theorem until_early_exit_assigns_half_sentinel
    (minimize : Bool) (mat : GroupedMatrix) (initialStates phi psi : StateSet)
    (solveEq : SolveEquationSystem) (qualitative : Bool)
    (hphi : phi.length = mat.length) (hpsi : psi.length = mat.length)
    (h : qualitative = true ∨
      isDisjointFrom initialStates (untilMaybeStates minimize mat phi psi) = true) :
    (∀ solveEq2, computeUnboundedUntilProbabilities minimize mat initialStates phi psi
        solveEq2 qualitative
      = computeUnboundedUntilProbabilities minimize mat initialStates phi psi
        solveEq qualitative) ∧
    (∀ i, (untilMaybeStates minimize mat phi psi).getD i false = true →
      (computeUnboundedUntilProbabilities minimize mat initialStates phi psi solveEq
        qualitative).1.getD i 0 = 1/2) := by
  have hcond : (isDisjointFrom initialStates (untilMaybeStates minimize mat phi psi)
      || qualitative) = true := by
    rcases h with h | h <;> simp [h]
  constructor
  · intro solveEq2
    simp only [computeUnboundedUntilProbabilities, hcond, if_true]
  · intro i hmay
    have hp0len : (performProb01 minimize mat phi psi).1.length = mat.length := by
      simp only [performProb01, complementSet_length]
      exact performProbGreater0_length minimize mat phi psi mat.length hphi hpsi
    have hp1len : (performProb01 minimize mat phi psi).2.length = mat.length :=
      performProb1_length minimize mat phi psi hphi hpsi
    have hunion := complementSet_getD_true (by simpa [untilMaybeStates] using hmay)
    have hin : i < mat.length := by
      have h2 := getD_true_lt_length _ _ hmay
      simp only [untilMaybeStates, complementSet_length, unionSet_length,
        hp0len, hp1len] at h2
      omega
    have hp01 := unionSet_getD_false (by rw [hp0len]; exact hin)
      (by rw [hp1len]; exact hin) hunion
    simp only [computeUnboundedUntilProbabilities, hcond, if_true]
    rw [setVectorValuesConst_getD_false _ _ _ i 0 hp01.2]
    rw [setVectorValuesConst_getD_false _ _ _ i 0 hp01.1]
    rw [setVectorValuesConst_getD_true _ _ _ i 0
      (by rw [List.length_replicate, hphi]; exact hin) hmay]

theorem until_early_exit_assigns_half_sentinel_witness :
    (computeUnboundedUntilProbabilities false
        [[[0,1/2,1/2]],[[0,1,0]],[[0,0,1]]] [true,false,false]
        [true,true,true] [false,true,false] (fun _ _ _ => []) true).1.getD 0 0 = 1/2 :=
  (until_early_exit_assigns_half_sentinel false
      [[[0,1/2,1/2]],[[0,1,0]],[[0,0,1]]] [true,false,false]
      [true,true,true] [false,true,false] (fun _ _ _ => []) true rfl rfl
      (Or.inl rfl)).2 0 (by decide)

/-- **C6** (counterexample): on a two-state model whose initial state
cannot reach the psi-state, `checkBoundedUntil` does not perform the
described restricted sweep computation: the early-exit branch assigns the
0.5 sentinel to the retained state, where the described computation yields
1. -/
theorem bounded_until_description_counterexample :
    checkBoundedUntil ⟨[[[1, 0]], [[0, 1]]], [true, false], none, none⟩
        false [true, true] [false, true] 1 false
      ≠ checkBoundedUntilDescribed ⟨[[[1, 0]], [[0, 1]]], [true, false], none, none⟩
        false [true, true] [false, true] 1 := by decide

/-- **C6** (amended): whenever the initial states are not disjoint from the
states with probability greater 0 of reaching psi within `stepBound` steps
(computed with universal choice semantics when minimizing and existential
when maximizing), `checkBoundedUntil` restricts to those states, makes the
rows of psi-states absorbing in the restricted submatrix, seeds the vector
with 1 on psi-states and 0 elsewhere, performs exactly `stepBound`
synchronous extremal matrix-vector reduction sweeps, and gives discarded
states 0; when they are disjoint, the sweep phase is skipped (the result is
the 0.5-sentinel assignment over the zero vector, with no restricted
system, seed or sweep occurring) and every retained state receives the 0.5
sentinel; discarded states receive 0 in both cases. -/
theorem bounded_until_matches_description
    (m : Mdp) (minimize : Bool) (phiStates psiStates : StateSet) (stepBound : Nat)
    (qualitative : Bool)
    (hphi : phiStates.length = m.numberOfStates)
    (hpsi : psiStates.length = m.numberOfStates) :
    (isDisjointFrom m.initialStates
        (performProbGreater0 minimize m.matrix phiStates psiStates stepBound) = false →
      checkBoundedUntil m minimize phiStates psiStates stepBound qualitative
        = checkBoundedUntilDescribed m minimize phiStates psiStates stepBound) ∧
    (isDisjointFrom m.initialStates
        (performProbGreater0 minimize m.matrix phiStates psiStates stepBound) = true →
      checkBoundedUntil m minimize phiStates psiStates stepBound qualitative
        = setVectorValuesConst (List.replicate m.numberOfStates (0 : Val))
            (performProbGreater0 minimize m.matrix phiStates psiStates stepBound)
            (1/2 : Val) ∧
      (∀ i, (performProbGreater0 minimize m.matrix phiStates psiStates
            stepBound).getD i false = true →
        (checkBoundedUntil m minimize phiStates psiStates stepBound qualitative).getD i 0
          = 1/2)) ∧
    (∀ i, i < m.numberOfStates →
      (performProbGreater0 minimize m.matrix phiStates psiStates stepBound).getD i false
        = false →
      (checkBoundedUntil m minimize phiStates psiStates stepBound qualitative).getD i 0
        = 0) := by
  have hGlen : (performProbGreater0 minimize m.matrix phiStates psiStates stepBound).length
      = m.numberOfStates := by
    simp only [Mdp.numberOfStates]
    exact performProbGreater0_length minimize m.matrix phiStates psiStates stepBound
      (by simpa [Mdp.numberOfStates] using hphi) (by simpa [Mdp.numberOfStates] using hpsi)
  refine ⟨?_, ?_, ?_⟩
  · intro h
    simp only [checkBoundedUntil, checkBoundedUntilDescribed, h, Bool.false_eq_true,
      if_false]
  · intro h
    constructor
    · simp only [checkBoundedUntil, h, if_true]
    · intro i hret
      have hin : i < m.numberOfStates := by
        have h2 := getD_true_lt_length _ _ hret
        rw [hGlen] at h2
        exact h2
      simp only [checkBoundedUntil, h, if_true]
      rw [setVectorValuesConst_getD_true _ _ _ i 0
        (by rw [List.length_replicate]; exact hin) hret]
  · intro i hin hdisc
    cases h : isDisjointFrom m.initialStates
        (performProbGreater0 minimize m.matrix phiStates psiStates stepBound) with
    | true =>
      simp only [checkBoundedUntil, h, if_true]
      rw [setVectorValuesConst_getD_false _ _ _ i 0 hdisc]
      exact getD_replicate _ _ _ _ hin
    | false =>
      have hcomp : (complementSet (performProbGreater0 minimize m.matrix phiStates
          psiStates stepBound)).getD i false = true := by
        rw [complementSet_getD _ _ (by rw [hGlen]; exact hin), hdisc]
        rfl
      simp only [checkBoundedUntil, h, Bool.false_eq_true, if_false]
      rw [setVectorValuesConst_getD_true _ _ _ i 0
        (by rw [setVectorValuesList_length, List.length_replicate]; exact hin) hcomp]

theorem bounded_until_matches_description_witness :
    checkBoundedUntil ⟨[[[0, 1], [1, 0]], [[0, 1]]], [true, false], none, none⟩
        false [true, true] [false, true] 2 false
      = checkBoundedUntilDescribed ⟨[[[0, 1], [1, 0]], [[0, 1]]], [true, false], none, none⟩
        false [true, true] [false, true] 2 :=
  (bounded_until_matches_description ⟨[[[0, 1], [1, 0]], [[0, 1]]], [true, false], none, none⟩
    false [true, true] [false, true] 2 false rfl rfl).1 (by decide)

end ClaimEvaluation

/-! ### Lemmas for fully deterministic models (one action row per state) -/

theorem zipWith_congr_left {α β γ : Type} (f g : α → β → γ) (a : List α) (b : List β)
    (h : ∀ x ∈ a, ∀ y, f x y = g x y) : List.zipWith f a b = List.zipWith g a b := by
  induction a generalizing b with
  | nil => simp
  | cons x xs ih =>
    cases b with
    | nil => simp
    | cons y ys =>
      simp only [List.zipWith_cons_cons]
      rw [h x (List.mem_cons_self x xs) y,
        ih ys (fun z hz y2 => h z (List.mem_cons_of_mem _ hz) y2)]

theorem all_eq_any_singleton {α : Type} (g : List α) (hg : g.length = 1) (P : α → Bool) :
    g.all P = g.any P := by
  cases g with
  | nil => simp at hg
  | cons x xs =>
    cases xs with
    | nil => simp
    | cons y ys => simp at hg

theorem groupCond_det {g : List Row} (hg : g.length = 1) (S : StateSet) :
    groupCond true g S = groupCond false g S := by
  simp only [groupCond, if_true, Bool.false_eq_true, if_false]
  exact all_eq_any_singleton g hg _

theorem probGreater0Step_det {mat : GroupedMatrix} (hdet : ∀ g ∈ mat, g.length = 1)
    (phi S : StateSet) :
    probGreater0Step true mat phi S = probGreater0Step false mat phi S := by
  unfold probGreater0Step
  exact zipWith_congr_left _ _ mat (List.zip phi S)
    (fun g hg p => by rw [groupCond_det (hdet g hg)])

theorem performProbGreater0_det {mat : GroupedMatrix} (hdet : ∀ g ∈ mat, g.length = 1)
    (phi psi : StateSet) (bound : Nat) :
    performProbGreater0 true mat phi psi bound
      = performProbGreater0 false mat phi psi bound := by
  unfold performProbGreater0
  rw [funext (probGreater0Step_det hdet phi)]

theorem prob1InnerStep_det {mat : GroupedMatrix} (hdet : ∀ g ∈ mat, g.length = 1)
    (phi R T : StateSet) :
    prob1InnerStep true mat phi R T = prob1InnerStep false mat phi R T := by
  unfold prob1InnerStep
  refine zipWith_congr_left _ _ mat (List.zip phi T) (fun g hg p => ?_)
  simp only [if_true, Bool.false_eq_true, if_false]
  rw [all_eq_any_singleton g (hdet g hg)]

theorem prob1Inner_det {mat : GroupedMatrix} (hdet : ∀ g ∈ mat, g.length = 1)
    (phi psi R : StateSet) :
    prob1Inner true mat phi psi R = prob1Inner false mat phi psi R := by
  unfold prob1Inner
  rw [funext (prob1InnerStep_det hdet phi R)]

theorem performProb1_det {mat : GroupedMatrix} (hdet : ∀ g ∈ mat, g.length = 1)
    (phi psi : StateSet) :
    performProb1 true mat phi psi = performProb1 false mat phi psi := by
  unfold performProb1
  rw [funext (prob1Inner_det hdet phi psi)]

theorem performProb01_det {mat : GroupedMatrix} (hdet : ∀ g ∈ mat, g.length = 1)
    (phi psi : StateSet) :
    performProb01 true mat phi psi = performProb01 false mat phi psi := by
  unfold performProb01
  rw [performProbGreater0_det hdet, performProb1_det hdet]

theorem getSubmatrix_det {mat : GroupedMatrix} (hdet : ∀ g ∈ mat, g.length = 1)
    (bits : StateSet) : ∀ g ∈ getSubmatrix bits mat, g.length = 1 := by
  intro g hg
  simp only [getSubmatrix, List.mem_map] at hg
  obtain ⟨g0, hg0, rfl⟩ := hg
  simp [hdet g0 (restrict_mem hg0)]

section ClaimEvaluation2

set_option allowUnsafeReducibility true

attribute [local semireducible] Rat.mul Rat.add Rat.inv Rat.sub

/-- **C8**: on a fully deterministic MDP (exactly one action row per
state), `computeUnboundedUntilProbabilities` with minimize and with
maximize return identical result vectors at every state: the graph
precomputation is quantifier-independent on singleton row groups, the
restricted submatrix and right-hand side coincide, and the extremal choice
of the solver collaborator degenerates (its contract makes it
direction-independent on matrices whose every row group is a single row). -/
theorem deterministic_min_max_until_agree
    (mat : GroupedMatrix) (initialStates phi psi : StateSet)
    (solveEq : SolveEquationSystem) (qualitative : Bool)
    (hdet : ∀ g ∈ mat, g.length = 1)
    (hsolve : ∀ A b, (∀ g ∈ A, g.length = 1) → solveEq true A b = solveEq false A b) :
    (computeUnboundedUntilProbabilities true mat initialStates phi psi solveEq
        qualitative).1
      = (computeUnboundedUntilProbabilities false mat initialStates phi psi solveEq
        qualitative).1 := by
  have h01 := performProb01_det hdet phi psi
  have hmaybe : untilMaybeStates true mat phi psi = untilMaybeStates false mat phi psi := by
    simp [untilMaybeStates, h01]
  have hx : solveEq true (getSubmatrix (untilMaybeStates false mat phi psi) mat)
        (getConstrainedRowSumVector (untilMaybeStates false mat phi psi) mat
          (performProb01 false mat phi psi).2)
      = solveEq false (getSubmatrix (untilMaybeStates false mat phi psi) mat)
        (getConstrainedRowSumVector (untilMaybeStates false mat phi psi) mat
          (performProb01 false mat phi psi).2) :=
    hsolve _ _ (getSubmatrix_det hdet _)
  simp only [computeUnboundedUntilProbabilities, h01, hmaybe, hx]

theorem deterministic_min_max_until_agree_witness :
    (computeUnboundedUntilProbabilities true [[[0, 1, 0]], [[0, 0, 1]], [[0, 0, 1]]]
        [true, false, false] [true, true, true] [false, true, false]
        (fun _ _ b => b.map (fun _ => 0)) false).1
      = (computeUnboundedUntilProbabilities false [[[0, 1, 0]], [[0, 0, 1]], [[0, 0, 1]]]
        [true, false, false] [true, true, true] [false, true, false]
        (fun _ _ b => b.map (fun _ => 0)) false).1 :=
  deterministic_min_max_until_agree [[[0, 1, 0]], [[0, 0, 1]], [[0, 0, 1]]]
    [true, false, false] [true, true, true] [false, true, false]
    (fun _ _ b => b.map (fun _ => 0)) false (by decide) (fun _ _ _ => rfl)

end ClaimEvaluation2

/-! ### Lemmas for the scheduler extraction -/

theorem getD_mem {α : Type} {l : List α} {i : Nat} (hi : i < l.length) (d : α) :
    l.getD i d ∈ l := by
  induction l generalizing i with
  | nil => simp at hi
  | cons x xs ih =>
    cases i with
    | zero => simp
    | succ j =>
      simp only [List.getD_cons_succ]
      exact List.mem_cons_of_mem _ (ih (by simpa using Nat.lt_of_succ_lt_succ hi))

theorem map_getD_default {α β : Type} (f : α → β) (l : List α) (i : Nat) (d : α) :
    (l.map f).getD i (f d) = f (l.getD i d) := by
  induction l generalizing i with
  | nil => simp
  | cons x xs ih =>
    cases i with
    | zero => rfl
    | succ j => simpa using ih j

theorem addGrouped_getD_length_le (a b : List Vec) (s : Nat) :
    ((addGrouped a b).getD s []).length ≤ ((a.getD s []) : Vec).length := by
  by_cases hs : s < (addGrouped a b).length
  · have hsa : s < a.length := by
      simp only [addGrouped, List.length_zipWith] at hs
      omega
    have hsb : s < b.length := by
      simp only [addGrouped, List.length_zipWith] at hs
      omega
    unfold addGrouped
    rw [zipWith_getD _ a b s [] [] [] hsa hsb]
    simp [List.length_zipWith]
  · have h1 : (addGrouped a b).getD s [] = [] := by
      apply List.getD_eq_default
      omega
    rw [h1]
    simp

theorem lookahead_base_getD (mat : GroupedMatrix) (result : Vec) (s : Nat) :
    (mat.map (fun g => g.map (fun r => rowDot r result))).getD s []
      = (mat.getD s []).map (fun r => rowDot r result) := by
  by_cases hs : s < mat.length
  · exact map_getD _ mat s [] [] hs
  · have h1 : (mat.map (fun g => g.map (fun r => rowDot r result))).getD s [] = [] := by
      apply List.getD_eq_default
      simpa using (by omega : mat.length ≤ s)
    have h2 : mat.getD s [] = ([] : List Row) := by
      apply List.getD_eq_default
      omega
    rw [h1, h2]
    rfl

theorem schedulerLookahead_group_length_le (mat : GroupedMatrix) (result : Vec)
    (srv : Option Vec) (trm : Option GroupedMatrix) (s : Nat) :
    ((schedulerLookahead mat result srv trm).getD s []).length
      ≤ ((mat.getD s []) : List Row).length := by
  have hbase := lookahead_base_getD mat result s
  cases srv with
  | none =>
    cases trm with
    | none =>
      simp only [schedulerLookahead]
      rw [hbase]
      simp
    | some t =>
      simp only [schedulerLookahead]
      refine le_trans (addGrouped_getD_length_le _ _ s) ?_
      rw [hbase]
      simp
  | some v =>
    cases trm with
    | none =>
      simp only [schedulerLookahead]
      refine le_trans (addGrouped_getD_length_le _ _ s) ?_
      rw [hbase]
      simp
    | some t =>
      simp only [schedulerLookahead]
      refine le_trans (addGrouped_getD_length_le _ _ s) ?_
      rw [hbase]
      simp

section ClaimEvaluation3

set_option allowUnsafeReducibility true

attribute [local semireducible] Rat.mul Rat.add Rat.inv Rat.sub

/-- **C7**: the scheduler returned by `computeUnboundedUntilProbabilities`
is produced by `computeExtremalScheduler` from the final result vector; the
extracted scheduler is total (one choice per state), every chosen action
index lies within the state's action-count range, the chosen action attains
the arg-min (when minimizing) / arg-max (when maximizing) of the one-step
lookahead values of the state's action rows — computed from the final
result vector, plus reward contributions when reward components are
supplied — and among tied actions the lowest action index is chosen. -/
theorem extremal_scheduler_chooses_extremal_action (minimize : Bool) (mat : GroupedMatrix)
    (result : Vec) (srv : Option Vec) (trm : Option GroupedMatrix)
    (hne : ∀ g ∈ mat, g ≠ []) :
    ((computeExtremalScheduler minimize mat result none none).length = mat.length) ∧
    (∀ initialStates phi psi solveEq qualitative,
      (computeUnboundedUntilProbabilities minimize mat initialStates phi psi solveEq
          qualitative).2
        = computeExtremalScheduler minimize mat
            (computeUnboundedUntilProbabilities minimize mat initialStates phi psi solveEq
              qualitative).1 none none) ∧
    (∀ s, s < mat.length →
      (computeExtremalScheduler minimize mat result srv trm).getD s 0
          < (mat.getD s [] : List Row).length ∧
      (((schedulerLookahead mat result srv trm).getD s []).getD
          ((computeExtremalScheduler minimize mat result srv trm).getD s 0) 0
        = listExt minimize ((schedulerLookahead mat result srv trm).getD s [])) ∧
      (∀ v ∈ (schedulerLookahead mat result srv trm).getD s [],
        (minimize = true →
          listExt minimize ((schedulerLookahead mat result srv trm).getD s []) ≤ v) ∧
        (minimize = false →
          v ≤ listExt minimize ((schedulerLookahead mat result srv trm).getD s []))) ∧
      (∀ j, j < (computeExtremalScheduler minimize mat result srv trm).getD s 0 →
        ((schedulerLookahead mat result srv trm).getD s []).getD j 0
          ≠ listExt minimize ((schedulerLookahead mat result srv trm).getD s []))) := by
  have hsched : ∀ s : Nat, (computeExtremalScheduler minimize mat result srv trm).getD s 0
      = argExt minimize ((schedulerLookahead mat result srv trm).getD s []) := by
    intro s
    unfold computeExtremalScheduler
    exact map_getD_default (argExt minimize) _ s []
  refine ⟨?_, ?_, ?_⟩
  · unfold computeExtremalScheduler
    simp [schedulerLookahead]
  · intro initialStates phi psi solveEq qualitative
    rfl
  · intro s hs
    have hgne := hne _ (getD_mem hs [])
    refine ⟨?_, ?_, ?_, ?_⟩
    · rw [hsched s]
      by_cases hgl : (schedulerLookahead mat result srv trm).getD s [] = []
      · rw [hgl]
        simpa [argExt, firstIndexOf] using List.length_pos.mpr hgne
      · have h1 := firstIndexOf_lt_length (listExt_mem minimize hgl)
        have h2 := schedulerLookahead_group_length_le mat result srv trm s
        unfold argExt
        omega
    · rw [hsched s]
      by_cases hgl : (schedulerLookahead mat result srv trm).getD s [] = []
      · rw [hgl]
        rfl
      · exact getD_firstIndexOf (listExt_mem minimize hgl)
    · intro v hv
      constructor
      · intro hm
        rw [hm]
        exact listExt_min_le hv
      · intro hm
        rw [hm]
        exact le_listExt_max hv
    · intro j hj
      rw [hsched s] at hj
      exact firstIndexOf_first hj

theorem extremal_scheduler_chooses_extremal_action_witness :
    (computeExtremalScheduler false [[[0, 1], [1, 0]], [[0, 1]]] [1, 1] none none).getD 0 0
      < (([[[0, 1], [1, 0]], [[0, 1]]] : GroupedMatrix).getD 0 [] : List Row).length :=
  ((extremal_scheduler_chooses_extremal_action false [[[0, 1], [1, 0]], [[0, 1]]] [1, 1]
      none none (by decide)).2.2 0 (by decide)).1

end ClaimEvaluation3

section ClaimEvaluation4

set_option allowUnsafeReducibility true

attribute [local semireducible] Rat.mul Rat.add Rat.inv Rat.sub

/-- **C5**: whenever the equation-solver collaborator returns values in
[0,1] (the only precision guarantee this layer claims for it), every entry
of the result vector of `computeUnboundedUntilProbabilities` lies in [0,1];
unconditionally, the result equals 0 at every state of the computed
probability-0 set and 1 at every state of the computed probability-1
set. -/
theorem until_result_unit_interval_and_exact_on_prob01
    (minimize : Bool) (mat : GroupedMatrix) (initialStates phi psi : StateSet)
    (solveEq : SolveEquationSystem) (qualitative : Bool)
    (hphi : phi.length = mat.length) (hpsi : psi.length = mat.length)
    (hsolve : ∀ v ∈ solveEq minimize
        (getSubmatrix (untilMaybeStates minimize mat phi psi) mat)
        (getConstrainedRowSumVector (untilMaybeStates minimize mat phi psi) mat
          (performProb01 minimize mat phi psi).2), 0 ≤ v ∧ v ≤ 1) :
    (∀ v ∈ (computeUnboundedUntilProbabilities minimize mat initialStates phi psi solveEq
        qualitative).1, 0 ≤ v ∧ v ≤ 1) ∧
    (∀ i, (performProb01 minimize mat phi psi).1.getD i false = true →
      (computeUnboundedUntilProbabilities minimize mat initialStates phi psi solveEq
        qualitative).1.getD i 0 = 0) ∧
    (∀ i, (performProb01 minimize mat phi psi).2.getD i false = true →
      (computeUnboundedUntilProbabilities minimize mat initialStates phi psi solveEq
        qualitative).1.getD i 0 = 1) := by
  have hp0len : (performProb01 minimize mat phi psi).1.length = mat.length := by
    simp only [performProb01, complementSet_length]
    exact performProbGreater0_length minimize mat phi psi mat.length hphi hpsi
  have hp1len : (performProb01 minimize mat phi psi).2.length = mat.length :=
    performProb1_length minimize mat phi psi hphi hpsi
  refine ⟨?_, ?_, ?_⟩
  · intro v hv
    simp only [computeUnboundedUntilProbabilities] at hv
    by_cases hc : (isDisjointFrom initialStates (untilMaybeStates minimize mat phi psi)
        || qualitative) = true
    · rw [if_pos hc] at hv
      rcases setVectorValuesConst_mem hv with hv | hv
      · rcases setVectorValuesConst_mem hv with hv | hv
        · rcases setVectorValuesConst_mem hv with hv | hv
          · rw [List.eq_of_mem_replicate hv]
            norm_num
          · rw [hv]
            norm_num
        · rw [hv]
          norm_num
      · rw [hv]
        norm_num
    · rw [if_neg hc] at hv
      rcases setVectorValuesConst_mem hv with hv | hv
      · rcases setVectorValuesConst_mem hv with hv | hv
        · rcases setVectorValuesList_mem hv with hv | hv
          · rw [List.eq_of_mem_replicate hv]
            norm_num
          · exact hsolve v hv
        · rw [hv]
          norm_num
      · rw [hv]
        norm_num
  · intro i h0
    have hd := prob01_disjoint minimize mat phi psi hphi hpsi i
    have h1 : (performProb01 minimize mat phi psi).2.getD i false = false := by
      cases hb : (performProb01 minimize mat phi psi).2.getD i false with
      | false => rfl
      | true => exact absurd ⟨h0, hb⟩ hd
    have hi : i < mat.length := by
      have h2 := getD_true_lt_length _ _ h0
      rw [hp0len] at h2
      exact h2
    simp only [computeUnboundedUntilProbabilities]
    by_cases hc : (isDisjointFrom initialStates (untilMaybeStates minimize mat phi psi)
        || qualitative) = true
    · rw [if_pos hc]
      rw [setVectorValuesConst_getD_false _ _ _ i 0 h1]
      rw [setVectorValuesConst_getD_true _ _ _ i 0
        (by rw [setVectorValuesConst_length, List.length_replicate, hphi]; exact hi) h0]
    · rw [if_neg hc]
      rw [setVectorValuesConst_getD_false _ _ _ i 0 h1]
      rw [setVectorValuesConst_getD_true _ _ _ i 0
        (by rw [setVectorValuesList_length, List.length_replicate, hphi]; exact hi) h0]
  · intro i h1
    have hi : i < mat.length := by
      have h2 := getD_true_lt_length _ _ h1
      rw [hp1len] at h2
      exact h2
    simp only [computeUnboundedUntilProbabilities]
    by_cases hc : (isDisjointFrom initialStates (untilMaybeStates minimize mat phi psi)
        || qualitative) = true
    · rw [if_pos hc]
      rw [setVectorValuesConst_getD_true _ _ _ i 0
        (by rw [setVectorValuesConst_length, setVectorValuesConst_length,
          List.length_replicate, hphi]; exact hi) h1]
    · rw [if_neg hc]
      rw [setVectorValuesConst_getD_true _ _ _ i 0
        (by rw [setVectorValuesConst_length, setVectorValuesList_length,
          List.length_replicate, hphi]; exact hi) h1]

theorem until_result_unit_interval_and_exact_on_prob01_witness :
    (computeUnboundedUntilProbabilities false [[[0, 1], [1, 0]], [[0, 1]]] [true, false]
        [true, true] [false, true] (fun _ _ _ => []) false).1.getD 1 0 = 1 :=
  (until_result_unit_interval_and_exact_on_prob01 false [[[0, 1], [1, 0]], [[0, 1]]]
      [true, false] [true, true] [false, true] (fun _ _ _ => []) false rfl rfl
      (by simp)).2.2 1 (by decide)

end ClaimEvaluation4

end Storm
